import Mathlib

/-! Shallow embedding of the `concurrent-slice` crate (src/src/chunk.rs,
src/src/chunks.rs, src/src/slice.rs, src/src/windows.rs).

A `Chunk` models `Chunk<'a, S, T>`: a shared-ownership view of a sub-range of
the backing collection.  The raw sub-slice pointer `NonNull<[T]>` is
represented by the absolute `start` offset into the owner's element sequence
together with the view's length `len`; the `Arc<S>` allocation identity
(`Arc::as_ptr` equality) is represented by `ownerId`, and the owner's element
storage by the Lean list `owner`.  `usize` values are modelled by `Nat` (no
arithmetic in the modelled paths can overflow a `usize` for the list lengths
involved).  A panic in the source is modelled by `Option` (`none` = panic).
Iterator `next` methods, which mutate `&mut self`, are modelled as explicit
state-passing functions returning the yielded item and the successor state. -/

namespace ConcurrentSlice

variable {α : Type} {σ : Type}

/-- `Chunk<'a, S, T>` (src/src/chunk.rs:6-14): `owner: Arc<S>` plus the raw
sub-slice `slice: NonNull<[T]>`, given here by absolute offset and length. -/
structure Chunk (α : Type) where
  ownerId : Nat
  owner : List α
  start : Nat
  len : Nat

/-- The element sequence the chunk's raw slice refers to. -/
def Chunk.view (c : Chunk α) : List α :=
  (c.owner.drop c.start).take c.len

/-- The chunk's raw range lies inside the owner's storage. -/
def Chunk.wf (c : Chunk α) : Prop :=
  c.start + c.len ≤ c.owner.length

/-- `Chunk::new` / `Chunk::from_arc` (chunk.rs:21-36): a fresh owner whose view
spans the whole collection.  `id` stands for the fresh `Arc` allocation's
address. -/
def Chunk.new (id : Nat) (s : List α) : Chunk α :=
  ⟨id, s, 0, s.length⟩

/-- `Chunk::split_at` (chunk.rs:42-62): `&slice[0..index]` and
`&slice[index..]`; slice indexing panics (`none`) when `index > len`. -/
def Chunk.splitAt (c : Chunk α) (index : Nat) : Option (Chunk α × Chunk α) :=
  if index ≤ c.len then
    some (⟨c.ownerId, c.owner, c.start, index⟩,
          ⟨c.ownerId, c.owner, c.start + index, c.len - index⟩)
  else none

/-- The pairwise contiguity check of `Chunk::cat` (chunk.rs:163-171): each
chunk's one-past-the-end pointer equals the next chunk's start pointer. -/
def contiguousB : List (Chunk α) → Bool
  | [] => true
  | [_] => true
  | a :: b :: rest => (a.start + a.len == b.start) && contiguousB (b :: rest)

/-- `Chunk::cat` (chunk.rs:141-192): panics (`none`) on an empty input, on
chunks whose owners differ (`Arc::as_ptr` equality, modelled by `ownerId`), or
on non-contiguous chunks; otherwise returns one chunk starting at the first
chunk's start whose length is the sum of the input lengths. -/
def Chunk.cat (chunks : List (Chunk α)) : Option (Chunk α) :=
  match chunks with
  | [] => none
  | first :: rest =>
    if (rest.all fun c => c.ownerId == first.ownerId) && contiguousB (first :: rest) then
      some ⟨first.ownerId, first.owner, first.start, ((first :: rest).map Chunk.len).sum⟩
    else none

/-- `SizedChunks<'a, S, T>` iterator state (chunks.rs:9-19).  `end` is a Lean
keyword and is written `end_`. -/
structure SizedChunks (α : Type) where
  index : Nat
  chunk_size : Nat
  end_ : Nat
  ownerId : Nat
  owner : List α

/-- `Chunk::into_sized_chunks` (chunk.rs:74-95): panics (`none`) unless
`slice_len == 0 || chunk_size > 0`; `index` starts at the chunk's start offset
within the owner (`start_index`, chunk.rs:275-283) and `end` is
`start + slice_len`.  (The zero-sized-type assertion never fires here: list
elements model non-zero-sized element types.) -/
def Chunk.intoSizedChunks (c : Chunk α) (chunk_size : Nat) : Option (SizedChunks α) :=
  if c.len = 0 ∨ 0 < chunk_size then
    some ⟨c.start, chunk_size, c.start + c.len, c.ownerId, c.owner⟩
  else none

/-- `SizedChunks::next` (chunks.rs:65-88): terminal when `index >= end`,
otherwise yields the owner's sub-slice `[index, min (index+chunk_size) end)`
and advances `index` to that boundary. -/
def SizedChunks.next (s : SizedChunks α) : Option (Chunk α) × SizedChunks α :=
  if s.end_ ≤ s.index then (none, s)
  else
    (some ⟨s.ownerId, s.owner, s.index, min (s.index + s.chunk_size) s.end_ - s.index⟩,
     { s with index := min (s.index + s.chunk_size) s.end_ })

/-- Fuel-indexed unfolding of repeated `SizedChunks::next` calls. -/
def sizedRunAux : Nat → SizedChunks α → List (Chunk α)
  | 0, _ => []
  | fuel + 1, s =>
    match s.next with
    | (some c, s') => c :: sizedRunAux fuel s'
    | (none, _) => []

/-- All chunks the iterator yields.  In every reachable state a yield advances
`index` by at least one, so `end_ - index` steps of fuel are enough. -/
def SizedChunks.run (s : SizedChunks α) : List (Chunk α) :=
  sizedRunAux (s.end_ - s.index) s

/-- `EvenChunks<'a, S, T>` iterator state (chunks.rs:97-108). -/
structure EvenChunks (α : Type) where
  base_chunk_size : Nat
  index : Nat
  long_end : Nat
  short_end : Nat
  ownerId : Nat
  owner : List α

/-- `Chunk::into_even_chunks` (chunk.rs:103-129): panics (`none`) unless
`num_chunks > 0`; `base_chunk_size = slice_len / num_chunks`,
`long_end = start + (slice_len % num_chunks) * (base_chunk_size + 1)`,
`short_end = start + slice_len`. -/
def Chunk.intoEvenChunks (c : Chunk α) (num_chunks : Nat) : Option (EvenChunks α) :=
  if 0 < num_chunks then
    some ⟨c.len / num_chunks, c.start,
          c.start + c.len % num_chunks * (c.len / num_chunks + 1),
          c.start + c.len, c.ownerId, c.owner⟩
  else none

/-- `EvenChunks::next` (chunks.rs:156-189): while `index < long_end` yield
chunks of `base_chunk_size + 1` elements, then while `index < short_end` yield
chunks of `base_chunk_size` elements, then terminal. -/
def EvenChunks.next (s : EvenChunks α) : Option (Chunk α) × EvenChunks α :=
  if s.index < s.long_end then
    (some ⟨s.ownerId, s.owner, s.index, s.base_chunk_size + 1⟩,
     { s with index := s.index + (s.base_chunk_size + 1) })
  else if s.index < s.short_end then
    (some ⟨s.ownerId, s.owner, s.index, s.base_chunk_size⟩,
     { s with index := s.index + s.base_chunk_size })
  else (none, s)

/-- Fuel-indexed unfolding of repeated `EvenChunks::next` calls. -/
def evenRunAux : Nat → EvenChunks α → List (Chunk α)
  | 0, _ => []
  | fuel + 1, s =>
    match s.next with
    | (some c, s') => c :: evenRunAux fuel s'
    | (none, _) => []

/-- All chunks the iterator yields (`short_end - index` steps of fuel suffice
in every reachable state). -/
def EvenChunks.run (s : EvenChunks α) : List (Chunk α) :=
  evenRunAux (s.short_end - s.index) s

/-- `Windows<'a, S, T>` iterator state (chunks.rs:344-354). -/
structure Windows (α : Type) where
  ownerId : Nat
  owner : List α
  size : Nat
  index : Nat
  end_ : Nat

/-- `Chunk::into_windows_owned` (chunk.rs:236-249): `index` starts at the
chunk's start offset, `end = index + slice_len`.  Note: no assertion on
`window_size`. -/
def Chunk.intoWindowsOwned (c : Chunk α) (window_size : Nat) : Windows α :=
  ⟨c.ownerId, c.owner, window_size, c.start, c.start + c.len⟩

/-- `Windows::next` (chunks.rs:376-394): terminal when `index + size > end`,
otherwise yields the owner's sub-slice `[index, index + size)` and advances
`index` by one. -/
def Windows.next (s : Windows α) : Option (Chunk α) × Windows α :=
  if s.end_ < s.index + s.size then (none, s)
  else (some ⟨s.ownerId, s.owner, s.index, s.size⟩, { s with index := s.index + 1 })

/-- `Windows::size_hint` (chunks.rs:396-399): `end - (index + size)`, with
`Nat` truncated subtraction standing for the `usize` subtraction (which would
underflow once `index + size > end`). -/
def Windows.size_hint (s : Windows α) : Nat :=
  s.end_ - (s.index + s.size)

/-- Fuel-indexed unfolding of repeated `Windows::next` calls. -/
def windowsRunAux : Nat → Windows α → List (Chunk α)
  | 0, _ => []
  | fuel + 1, s =>
    match s.next with
    | (some c, s') => c :: windowsRunAux fuel s'
    | (none, _) => []

/-- All chunks the window iterator yields (a yield advances `index` by exactly
one, so `end_ + 1 - index` steps of fuel are enough, window width zero
included). -/
def Windows.run (s : Windows α) : List (Chunk α) :=
  windowsRunAux (s.end_ + 1 - s.index) s

/-- `Chunks<S, T>` iterator state built by
`ConcurrentSlice::concurrent_chunks_by_division` (src/src/slice.rs:55-61,
93-99): fields `index`, `chunk_size`, `end`, `data`. -/
structure Chunks (α : Type) where
  index : Nat
  chunk_size : Nat
  end_ : Nat
  data : List α

/-- `ConcurrentSlice::concurrent_chunks_by_division` with an explicitly
supplied division count (slice.rs:72-100): `chunk_size` is `0` for an empty
slice and otherwise `(len + division - 1) / division` after asserting
`division > 0` (`none` = panic); the iterator starts at `index = 0` with
`end = len`. -/
def concurrent_chunks_by_division (s : List α) (division : Nat) : Option (Chunks α) :=
  if s.length = 0 then some ⟨0, 0, s.length, s⟩
  else if 0 < division then
    some ⟨0, (s.length + division - 1) / division, s.length, s⟩
  else none

/-- Modelled from the spec: the `Iterator` impl of the historical `Chunks`
type constructed in src/src/slice.rs is not under src/ (only its construction
sites are).  §4.3 of the spec gives the fixed-size transition rule: "if
`offset >= end`, terminal; otherwise compute the next boundary per the fixed
sizing rule, emit a View over `[offset, boundary)`, set `offset = boundary`" —
which coincides with `SizedChunks::next` (src/src/chunks.rs:65-88).  The
yielded view is rendered as a `Chunk` whose owner is the iterator's `data`. -/
def Chunks.next (s : Chunks α) : Option (Chunk α) × Chunks α :=
  if s.end_ ≤ s.index then (none, s)
  else
    (some ⟨0, s.data, s.index, min (s.index + s.chunk_size) s.end_ - s.index⟩,
     { s with index := min (s.index + s.chunk_size) s.end_ })

/-- Fuel-indexed unfolding of repeated `Chunks::next` calls. -/
def chunksRunAux : Nat → Chunks α → List (Chunk α)
  | 0, _ => []
  | fuel + 1, s =>
    match s.next with
    | (some c, s') => c :: chunksRunAux fuel s'
    | (none, _) => []

/-- All chunks the fixed-size division iterator yields. -/
def Chunks.run (s : Chunks α) : List (Chunk α) :=
  chunksRunAux (s.end_ - s.index) s

/-- A `Chunks` state is the same state machine as a `SizedChunks` state. -/
def Chunks.toSized (s : Chunks α) : SizedChunks α :=
  ⟨s.index, s.chunk_size, s.end_, 0, s.data⟩

/-- `Windows<S, T>` from src/src/windows.rs:5-9 (the historical
`ConcurrentSlice` extension's window iterator): the `OwningRef` projected to
the whole slice, plus `size` and `index`. -/
structure WindowsRef (α : Type) where
  owner : List α
  size : Nat
  index : Nat

/-- `ConcurrentSlice::owning_windows` (src/src/slice.rs:115-128): asserts
`size > 0` (`none` = panic) and starts at `index = 0`. -/
def owning_windows (s : List α) (size : Nat) : Option (WindowsRef α) :=
  if 0 < size then some ⟨s, size, 0⟩ else none

/-- `Windows::next` from src/src/windows.rs:29-40: terminal when
`index + size > owner.len()`, otherwise yields the sub-slice
`[index, index + size)` and advances `index` by one. -/
def WindowsRef.next (s : WindowsRef α) : Option (List α) × WindowsRef α :=
  if s.owner.length < s.index + s.size then (none, s)
  else (some ((s.owner.drop s.index).take s.size), { s with index := s.index + 1 })

/-- Modelled from `std::sync::Arc` as observed by `Arc::try_unwrap` and
`Arc::strong_count`: the strong reference count paired with the owned value. -/
structure Arc (σ : Type) where
  strong : Nat
  value : σ

/-- `Arc::try_unwrap`: succeeds and returns the inner value iff the strong
count is exactly 1; otherwise returns the same `Arc` unchanged. -/
def Arc.tryUnwrap (a : Arc σ) : Except (Arc σ) σ :=
  if a.strong = 1 then Except.ok a.value else Except.error a

/-- A `Chunk` handle whose owner carries its reference count, for the
reclamation claims. -/
structure ChunkH (α : Type) where
  owner : Arc (List α)
  start : Nat
  len : Nat

/-- `Chunk::try_unwrap_owner` (chunk.rs:266-273): `Arc::try_unwrap(owner)`,
reconstructing the chunk with the same owner and the same slice on failure. -/
def ChunkH.tryUnwrapOwner (c : ChunkH α) : Except (ChunkH α) (List α) :=
  match c.owner.tryUnwrap with
  | Except.ok v => Except.ok v
  | Except.error o => Except.error ⟨o, c.start, c.len⟩

/-- A `SizedChunks` handle whose owner carries its reference count. -/
structure SizedChunksH (α : Type) where
  index : Nat
  chunk_size : Nat
  end_ : Nat
  owner : Arc (List α)

/-- `SizedChunks::try_unwrap_owner` (chunks.rs:34-50): `Arc::try_unwrap`,
reconstructing the iterator with all fields intact on failure. -/
def SizedChunksH.tryUnwrapOwner (s : SizedChunksH α) : Except (SizedChunksH α) (List α) :=
  match s.owner.tryUnwrap with
  | Except.ok v => Except.ok v
  | Except.error o => Except.error ⟨s.index, s.chunk_size, s.end_, o⟩

/-- States of the fixed-size iterator reachable from a well-formed
construction by `next` calls. -/
inductive SizedReach : SizedChunks α → Prop where
  | init (c : Chunk α) (k : Nat) (s : SizedChunks α) (hwf : c.wf)
      (h : c.intoSizedChunks k = some s) : SizedReach s
  | step (s : SizedChunks α) (h : SizedReach s) : SizedReach s.next.2

/-- States of the even iterator reachable from a well-formed construction by
`next` calls. -/
inductive EvenReach : EvenChunks α → Prop where
  | init (c : Chunk α) (n : Nat) (s : EvenChunks α) (hwf : c.wf)
      (h : c.intoEvenChunks n = some s) : EvenReach s
  | step (s : EvenChunks α) (h : EvenReach s) : EvenReach s.next.2

/-- Invariant of the fixed-size iterator: `index ≤ end ≤ owner length`, and
the chunk size is positive whenever anything remains. -/
def SizedInv (s : SizedChunks α) : Prop :=
  s.index ≤ s.end_ ∧ s.end_ ≤ s.owner.length ∧ (s.index < s.end_ → 0 < s.chunk_size)

/-- Invariant of the even iterator: `long_end ≤ short_end`,
`index ≤ short_end ≤ owner length`, the long region left of `index` is a
multiple of `base_chunk_size + 1` with the short region a multiple of
`base_chunk_size`, and a zero base size forces the short region to be empty. -/
def EvenInv (s : EvenChunks α) : Prop :=
  s.long_end ≤ s.short_end ∧ s.index ≤ s.short_end ∧ s.short_end ≤ s.owner.length ∧
  (s.index ≤ s.long_end →
    (s.base_chunk_size + 1) ∣ (s.long_end - s.index) ∧
    s.base_chunk_size ∣ (s.short_end - s.long_end) ∧
    (s.base_chunk_size = 0 → s.long_end = s.short_end)) ∧
  (s.long_end ≤ s.index →
    s.base_chunk_size ∣ (s.short_end - s.index) ∧
    (s.base_chunk_size = 0 → s.index = s.short_end))

/-! Helper lemmas: fixed-size chunk iterator. -/

theorem pred_div_self (k : Nat) : (k - 1) / k = 0 := by
  rcases k with _ | k
  · rfl
  · exact Nat.div_eq_of_lt (by omega)

theorem sizedRunAux_terminal (fuel : Nat) (s : SizedChunks α) (h : s.end_ ≤ s.index) :
    sizedRunAux fuel s = [] := by
  rcases fuel with _ | fuel
  · rfl
  · simp [sizedRunAux, SizedChunks.next, h]

theorem sizedRunAux_length (fuel : Nat) : ∀ (s : SizedChunks α),
    (s.index < s.end_ → 0 < s.chunk_size) → s.end_ - s.index ≤ fuel →
    (sizedRunAux fuel s).length = (s.end_ - s.index + s.chunk_size - 1) / s.chunk_size := by
  induction fuel with
  | zero =>
    intro s _ hfuel
    have hr : s.end_ - s.index = 0 := by omega
    rw [hr]
    simpa [sizedRunAux] using (pred_div_self s.chunk_size).symm
  | succ fuel ih =>
    intro s hk hfuel
    by_cases h : s.end_ ≤ s.index
    · have hr : s.end_ - s.index = 0 := by omega
      rw [sizedRunAux_terminal _ _ h, hr]
      simpa using (pred_div_self s.chunk_size).symm
    · have hlt : s.index < s.end_ := by omega
      have hkpos := hk hlt
      simp only [sizedRunAux, SizedChunks.next, if_neg h, List.length_cons]
      set e := min (s.index + s.chunk_size) s.end_ with he
      have hadv : s.index < e := by omega
      have hee : e ≤ s.end_ := by omega
      have hrec := ih ⟨e, s.chunk_size, s.end_, s.ownerId, s.owner⟩ (fun _ => hkpos)
        (show s.end_ - e ≤ fuel by omega)
      rw [hrec]
      show (s.end_ - e + s.chunk_size - 1) / s.chunk_size + 1
        = (s.end_ - s.index + s.chunk_size - 1) / s.chunk_size
      rcases le_or_lt (s.index + s.chunk_size) s.end_ with hcase | hcase
      · have harith : s.end_ - s.index + s.chunk_size - 1
            = (s.end_ - e + s.chunk_size - 1) + s.chunk_size := by omega
        rw [harith, Nat.add_div_right _ hkpos]
      · have h1 : s.end_ - e + s.chunk_size - 1 = s.chunk_size - 1 := by omega
        have h2 : s.end_ - s.index + s.chunk_size - 1
            = (s.end_ - s.index - 1) + s.chunk_size := by omega
        rw [h1, h2, Nat.add_div_right _ hkpos, pred_div_self,
          Nat.div_eq_of_lt (show s.end_ - s.index - 1 < s.chunk_size by omega)]

theorem sizedRunAux_flatten (fuel : Nat) : ∀ (s : SizedChunks α),
    (s.index < s.end_ → 0 < s.chunk_size) → s.end_ - s.index ≤ fuel →
    ((sizedRunAux fuel s).map Chunk.view).flatten
      = (s.owner.drop s.index).take (s.end_ - s.index) := by
  induction fuel with
  | zero =>
    intro s _ hfuel
    have hr : s.end_ - s.index = 0 := by omega
    simp [sizedRunAux, hr]
  | succ fuel ih =>
    intro s hk hfuel
    by_cases h : s.end_ ≤ s.index
    · have hr : s.end_ - s.index = 0 := by omega
      rw [sizedRunAux_terminal _ _ h, hr]
      simp
    · have hlt : s.index < s.end_ := by omega
      have hkpos := hk hlt
      simp only [sizedRunAux, SizedChunks.next, if_neg h, List.map_cons, List.flatten_cons]
      set e := min (s.index + s.chunk_size) s.end_ with he
      have hadv : s.index < e := by omega
      have hee : e ≤ s.end_ := by omega
      have hrec := ih ⟨e, s.chunk_size, s.end_, s.ownerId, s.owner⟩ (fun _ => hkpos)
        (show s.end_ - e ≤ fuel by omega)
      rw [hrec]
      show (s.owner.drop s.index).take (e - s.index) ++ (s.owner.drop e).take (s.end_ - e)
        = (s.owner.drop s.index).take (s.end_ - s.index)
      have hsplit : s.end_ - s.index = (e - s.index) + (s.end_ - e) := by omega
      rw [hsplit, List.take_add, List.drop_drop]
      have hes : s.index + (e - s.index) = e := by omega
      rw [hes]

theorem sizedRunAux_eq_nil_of_le (fuel : Nat) (s : SizedChunks α)
    (h : sizedRunAux fuel s ≠ []) : s.index < s.end_ := by
  by_contra hc
  exact h (sizedRunAux_terminal fuel s (by omega))

theorem sizedRunAux_dropLast (fuel : Nat) : ∀ (s : SizedChunks α),
    (s.index < s.end_ → 0 < s.chunk_size) → s.end_ - s.index ≤ fuel →
    ∀ c ∈ (sizedRunAux fuel s).dropLast, c.len = s.chunk_size := by
  induction fuel with
  | zero => intro s _ _ c hc; simp [sizedRunAux] at hc
  | succ fuel ih =>
    intro s hk hfuel c hc
    by_cases h : s.end_ ≤ s.index
    · rw [sizedRunAux_terminal _ _ h] at hc
      simp at hc
    · have hlt : s.index < s.end_ := by omega
      have hkpos := hk hlt
      simp only [sizedRunAux, SizedChunks.next, if_neg h] at hc
      set e := min (s.index + s.chunk_size) s.end_ with he
      set s' : SizedChunks α := ⟨e, s.chunk_size, s.end_, s.ownerId, s.owner⟩ with hs'
      by_cases hrest : sizedRunAux fuel s' = []
      · rw [hrest] at hc
        simp at hc
      · obtain ⟨b, l', hbl⟩ := List.exists_cons_of_ne_nil hrest
        rw [hbl, List.dropLast_cons₂, ← hbl] at hc
        rcases List.mem_cons.mp hc with rfl | hc'
        · have hlt' : s'.index < s'.end_ := sizedRunAux_eq_nil_of_le fuel s' hrest
          have : e < s.end_ := hlt'
          simp only
          omega
        · exact ih s' (fun _ => hkpos) (show s.end_ - e ≤ fuel by omega) c hc'

theorem sizedRunAux_bounds (fuel : Nat) : ∀ (s : SizedChunks α),
    (s.index < s.end_ → 0 < s.chunk_size) →
    ∀ c ∈ sizedRunAux fuel s, s.index ≤ c.start ∧ c.start + c.len ≤ s.end_ ∧
      c.ownerId = s.ownerId ∧ c.owner = s.owner ∧ 0 < c.len := by
  induction fuel with
  | zero => intro s _ c hc; simp [sizedRunAux] at hc
  | succ fuel ih =>
    intro s hk c hc
    by_cases h : s.end_ ≤ s.index
    · rw [sizedRunAux_terminal _ _ h] at hc
      simp at hc
    · have hlt : s.index < s.end_ := by omega
      have hkpos := hk hlt
      simp only [sizedRunAux, SizedChunks.next, if_neg h] at hc
      set e := min (s.index + s.chunk_size) s.end_ with he
      rcases List.mem_cons.mp hc with rfl | hc'
      · exact ⟨le_refl _, show s.index + (e - s.index) ≤ s.end_ by omega, rfl, rfl,
          show 0 < e - s.index by omega⟩
      · have := ih ⟨e, s.chunk_size, s.end_, s.ownerId, s.owner⟩ (fun _ => hkpos) c hc'
        simp only at this
        exact ⟨by omega, this.2.1, this.2.2.1, this.2.2.2.1, this.2.2.2.2⟩

theorem sizedRunAux_head (fuel : Nat) (s : SizedChunks α) (c : Chunk α)
    (h : (sizedRunAux fuel s).head? = some c) : c.start = s.index := by
  rcases fuel with _ | fuel
  · simp [sizedRunAux] at h
  · by_cases ht : s.end_ ≤ s.index
    · rw [sizedRunAux_terminal _ _ ht] at h
      simp at h
    · simp only [sizedRunAux, SizedChunks.next, if_neg ht, List.head?_cons,
        Option.some_inj] at h
      rw [← h]

theorem sizedRunAux_chain (fuel : Nat) : ∀ (s : SizedChunks α),
    List.Chain' (fun a b => a.start + a.len = b.start) (sizedRunAux fuel s) := by
  induction fuel with
  | zero => intro s; simp [sizedRunAux]
  | succ fuel ih =>
    intro s
    by_cases h : s.end_ ≤ s.index
    · rw [sizedRunAux_terminal _ _ h]
      simp
    · simp only [sizedRunAux, SizedChunks.next, if_neg h]
      set e := min (s.index + s.chunk_size) s.end_ with he
      set s' : SizedChunks α := ⟨e, s.chunk_size, s.end_, s.ownerId, s.owner⟩ with hs'
      refine List.chain'_cons'.mpr ⟨?_, ih s'⟩
      intro b hb
      have hb' := sizedRunAux_head fuel s' b hb
      simp only [hs'] at hb'
      simp only [hb']
      omega

/-! Helper lemmas: invariants of the two partition iterators. -/

theorem take_chunk_step (o : List α) (i adv r : Nat) (h : adv ≤ r) :
    (o.drop i).take adv ++ (o.drop (i + adv)).take (r - adv) = (o.drop i).take r := by
  conv_rhs => rw [show r = adv + (r - adv) by omega]
  rw [List.take_add, List.drop_drop]

theorem intoSizedChunks_eq (c : Chunk α) (k : Nat) (s : SizedChunks α)
    (h : c.intoSizedChunks k = some s) :
    s = ⟨c.start, k, c.start + c.len, c.ownerId, c.owner⟩ ∧ (c.len = 0 ∨ 0 < k) := by
  by_cases hcond : c.len = 0 ∨ 0 < k
  · rw [Chunk.intoSizedChunks, if_pos hcond] at h
    exact ⟨(Option.some_inj.mp h).symm, hcond⟩
  · rw [Chunk.intoSizedChunks, if_neg hcond] at h
    cases h

theorem intoEvenChunks_eq (c : Chunk α) (n : Nat) (s : EvenChunks α)
    (h : c.intoEvenChunks n = some s) :
    s = ⟨c.len / n, c.start, c.start + c.len % n * (c.len / n + 1),
         c.start + c.len, c.ownerId, c.owner⟩ ∧ 0 < n := by
  by_cases hcond : 0 < n
  · rw [Chunk.intoEvenChunks, if_pos hcond] at h
    exact ⟨(Option.some_inj.mp h).symm, hcond⟩
  · rw [Chunk.intoEvenChunks, if_neg hcond] at h
    cases h

theorem sizedInv_init (c : Chunk α) (k : Nat) (s : SizedChunks α) (hwf : c.wf)
    (h : c.intoSizedChunks k = some s) : SizedInv s := by
  obtain ⟨rfl, hcond⟩ := intoSizedChunks_eq c k s h
  simp only [SizedInv]
  refine ⟨by omega, hwf, ?_⟩
  intro hlt
  rcases hcond with h0 | hk
  · exact absurd hlt (by omega)
  · exact hk

theorem sizedInv_next (s : SizedChunks α) (h : SizedInv s) : SizedInv s.next.2 := by
  obtain ⟨h1, h2, h3⟩ := h
  by_cases ht : s.end_ ≤ s.index
  · simp only [SizedChunks.next, if_pos ht]
    exact ⟨h1, h2, h3⟩
  · have hk := h3 (by omega)
    simp only [SizedChunks.next, if_neg ht, SizedInv]
    exact ⟨by omega, h2, fun _ => hk⟩

theorem sizedReach_inv (s : SizedChunks α) (h : SizedReach s) : SizedInv s := by
  induction h with
  | init c k s hwf hs => exact sizedInv_init c k s hwf hs
  | step s _ ih => exact sizedInv_next s ih

theorem evenInv_of (id start len n b r : Nat) (o : List α) (_hn : 0 < n)
    (hb : n * b + r = len) (hr : r < n) (hwf : start + len ≤ o.length) :
    EvenInv (α := α) ⟨b, start, start + r * (b + 1), start + len, id, o⟩ := by
  have hmul : r * (b + 1) = r * b + r := Nat.mul_succ r b
  have hmul2 : (n - r) * b = n * b - r * b := Nat.sub_mul n r b
  have hrb : r * b ≤ n * b := Nat.mul_le_mul_right b (Nat.le_of_lt hr)
  simp only [EvenInv]
  refine ⟨by omega, by omega, by omega, ?_, ?_⟩
  · intro _
    refine ⟨?_, ?_, ?_⟩
    · have h4 : start + r * (b + 1) - start = r * (b + 1) := by omega
      rw [h4]
      exact dvd_mul_left _ _
    · have h5 : start + len - (start + r * (b + 1)) = (n - r) * b := by omega
      rw [h5]
      exact dvd_mul_left _ _
    · intro h0
      subst h0
      omega
  · intro h6
    refine ⟨?_, ?_⟩
    · have h7 : start + len - start = len := by omega
      rw [h7]
      have h8 : len = n * b := by omega
      rw [h8]
      exact dvd_mul_left _ _
    · intro h0
      subst h0
      omega

theorem evenInv_init (c : Chunk α) (n : Nat) (s : EvenChunks α) (hwf : c.wf)
    (h : c.intoEvenChunks n = some s) : EvenInv s := by
  obtain ⟨rfl, hn⟩ := intoEvenChunks_eq c n s h
  exact evenInv_of c.ownerId c.start c.len n (c.len / n) (c.len % n) c.owner hn
    (Nat.div_add_mod c.len n) (Nat.mod_lt _ hn) hwf

theorem evenInv_next (s : EvenChunks α) (h : EvenInv s) : EvenInv s.next.2 := by
  obtain ⟨h1, h2, h3, h4, h5⟩ := h
  by_cases hl : s.index < s.long_end
  · obtain ⟨hd1, hd2, hd3⟩ := h4 (by omega)
    have hadv : s.base_chunk_size + 1 ≤ s.long_end - s.index :=
      Nat.le_of_dvd (by omega) hd1
    simp only [EvenChunks.next, if_pos hl, EvenInv]
    refine ⟨h1, by omega, h3, ?_, ?_⟩
    · intro _
      refine ⟨?_, hd2, hd3⟩
      have heq : s.long_end - (s.index + (s.base_chunk_size + 1))
          = (s.long_end - s.index) - (s.base_chunk_size + 1) := by omega
      rw [heq]
      exact Nat.dvd_sub' hd1 dvd_rfl
    · intro hge
      have hix : s.index + (s.base_chunk_size + 1) = s.long_end := by omega
      rw [hix]
      refine ⟨hd2, fun h0 => ?_⟩
      have := hd3 h0
      omega
  · by_cases hsh : s.index < s.short_end
    · obtain ⟨he1, he2⟩ := h5 (by omega)
      have hbpos : 0 < s.base_chunk_size := by
        rcases Nat.eq_zero_or_pos s.base_chunk_size with h0 | hpos
        · exact absurd (he2 h0) (by omega)
        · exact hpos
      have hadv : s.base_chunk_size ≤ s.short_end - s.index :=
        Nat.le_of_dvd (by omega) he1
      simp only [EvenChunks.next, if_neg hl, if_pos hsh, EvenInv]
      refine ⟨h1, by omega, h3, ?_, ?_⟩
      · intro habs
        exact absurd habs (by omega)
      · intro _
        refine ⟨?_, fun h0 => absurd h0 (by omega)⟩
        have heq : s.short_end - (s.index + s.base_chunk_size)
            = (s.short_end - s.index) - s.base_chunk_size := by omega
        rw [heq]
        exact Nat.dvd_sub' he1 dvd_rfl
    · simp only [EvenChunks.next, if_neg hl, if_neg hsh]
      exact ⟨h1, h2, h3, h4, h5⟩

theorem evenReach_inv (s : EvenChunks α) (h : EvenReach s) : EvenInv s := by
  induction h with
  | init c n s hwf hs => exact evenInv_init c n s hwf hs
  | step s _ ih => exact evenInv_next s ih

/-! Helper lemmas: runs of the even-chunk iterator. -/

theorem evenRunAux_terminal (fuel : Nat) (s : EvenChunks α) (hls : s.long_end ≤ s.short_end)
    (h : s.short_end ≤ s.index) : evenRunAux fuel s = [] := by
  rcases fuel with _ | fuel
  · rfl
  · simp [evenRunAux, EvenChunks.next, show ¬ s.index < s.long_end by omega,
      show ¬ s.index < s.short_end by omega]

theorem evenRunAux_lens (fuel : Nat) : ∀ (s : EvenChunks α), EvenInv s →
    s.short_end - s.index ≤ fuel →
    (evenRunAux fuel s).map Chunk.len
      = List.replicate ((s.long_end - s.index) / (s.base_chunk_size + 1))
          (s.base_chunk_size + 1)
        ++ List.replicate ((s.short_end - max s.long_end s.index) / s.base_chunk_size)
            s.base_chunk_size := by
  induction fuel with
  | zero =>
    intro s hinv hfuel
    obtain ⟨h1, h2, _, _, _⟩ := hinv
    have hidx : s.index = s.short_end := by omega
    have hle : s.long_end - s.index = 0 := by omega
    have hmax : max s.long_end s.index = s.index := by omega
    rw [hle, hmax, hidx]
    simp [evenRunAux]
  | succ fuel ih =>
    intro s hinv hfuel
    obtain ⟨h1, h2, h3, h4, h5⟩ := hinv
    by_cases hl : s.index < s.long_end
    · obtain ⟨hd1, hd2, hd3⟩ := h4 (by omega)
      have hadv : s.base_chunk_size + 1 ≤ s.long_end - s.index :=
        Nat.le_of_dvd (by omega) hd1
      obtain ⟨m, hm⟩ := hd1
      have hmpos : 0 < m := by
        rcases Nat.eq_zero_or_pos m with h0 | hpos
        · rw [h0, Nat.mul_zero] at hm
          omega
        · exact hpos
      obtain ⟨m', rfl⟩ : ∃ m', m = m' + 1 := ⟨m - 1, by omega⟩
      have hm' : s.long_end - s.index
          = (s.base_chunk_size + 1) * m' + (s.base_chunk_size + 1) := by
        rw [hm, Nat.mul_succ]
      have hinv' : EvenInv
          ⟨s.base_chunk_size, s.index + (s.base_chunk_size + 1), s.long_end,
           s.short_end, s.ownerId, s.owner⟩ := by
        have hstep := evenInv_next s ⟨h1, h2, h3, h4, h5⟩
        simpa [EvenChunks.next, if_pos hl] using hstep
      have hrec := ih ⟨s.base_chunk_size, s.index + (s.base_chunk_size + 1), s.long_end,
          s.short_end, s.ownerId, s.owner⟩ hinv'
        (show s.short_end - (s.index + (s.base_chunk_size + 1)) ≤ fuel by omega)
      simp only [evenRunAux, EvenChunks.next, if_pos hl, List.map_cons]
      rw [hrec]
      show (s.base_chunk_size + 1)
          :: (List.replicate ((s.long_end - (s.index + (s.base_chunk_size + 1)))
                / (s.base_chunk_size + 1)) (s.base_chunk_size + 1)
              ++ List.replicate ((s.short_end
                    - max s.long_end (s.index + (s.base_chunk_size + 1)))
                  / s.base_chunk_size) s.base_chunk_size)
        = _
      have hmax1 : max s.long_end (s.index + (s.base_chunk_size + 1)) = s.long_end := by
        omega
      have hmax2 : max s.long_end s.index = s.long_end := by omega
      have hcnt1 : s.long_end - (s.index + (s.base_chunk_size + 1))
          = (s.base_chunk_size + 1) * m' := by omega
      rw [hmax1, hmax2, hcnt1, Nat.mul_div_cancel_left _ (Nat.succ_pos _), hm,
        Nat.mul_div_cancel_left _ (Nat.succ_pos _), List.replicate_succ,
        List.cons_append]
    · by_cases hsh : s.index < s.short_end
      · obtain ⟨he1, he2⟩ := h5 (by omega)
        have hbpos : 0 < s.base_chunk_size := by
          rcases Nat.eq_zero_or_pos s.base_chunk_size with h0 | hpos
          · exact absurd (he2 h0) (by omega)
          · exact hpos
        have hadv : s.base_chunk_size ≤ s.short_end - s.index :=
          Nat.le_of_dvd (by omega) he1
        obtain ⟨m, hm⟩ := he1
        have hmpos : 0 < m := by
          rcases Nat.eq_zero_or_pos m with h0 | hpos
          · rw [h0, Nat.mul_zero] at hm
            omega
          · exact hpos
        obtain ⟨m', rfl⟩ : ∃ m', m = m' + 1 := ⟨m - 1, by omega⟩
        have hm' : s.short_end - s.index
            = s.base_chunk_size * m' + s.base_chunk_size := by
          rw [hm, Nat.mul_succ]
        have hinv' : EvenInv
            ⟨s.base_chunk_size, s.index + s.base_chunk_size, s.long_end,
             s.short_end, s.ownerId, s.owner⟩ := by
          have hstep := evenInv_next s ⟨h1, h2, h3, h4, h5⟩
          simpa [EvenChunks.next, if_neg hl, if_pos hsh] using hstep
        have hrec := ih ⟨s.base_chunk_size, s.index + s.base_chunk_size, s.long_end,
            s.short_end, s.ownerId, s.owner⟩ hinv'
          (show s.short_end - (s.index + s.base_chunk_size) ≤ fuel by omega)
        simp only [evenRunAux, EvenChunks.next, if_neg hl, if_pos hsh, List.map_cons]
        rw [hrec]
        show s.base_chunk_size
            :: (List.replicate ((s.long_end - (s.index + s.base_chunk_size))
                  / (s.base_chunk_size + 1)) (s.base_chunk_size + 1)
                ++ List.replicate ((s.short_end
                      - max s.long_end (s.index + s.base_chunk_size))
                    / s.base_chunk_size) s.base_chunk_size)
          = _
        have hmax1 : max s.long_end (s.index + s.base_chunk_size)
            = s.index + s.base_chunk_size := by omega
        have hmax2 : max s.long_end s.index = s.index := by omega
        have hz1 : s.long_end - (s.index + s.base_chunk_size) = 0 := by omega
        have hz2 : s.long_end - s.index = 0 := by omega
        have hcnt1 : s.short_end - (s.index + s.base_chunk_size)
            = s.base_chunk_size * m' := by omega
        rw [hmax1, hmax2, hz1, hz2, hcnt1, Nat.mul_div_cancel_left _ hbpos, hm,
          Nat.mul_div_cancel_left _ hbpos, List.replicate_succ]
        simp
      · rw [evenRunAux_terminal _ _ h1 (by omega)]
        have hz1 : s.long_end - s.index = 0 := by omega
        have hmax : max s.long_end s.index = s.index := by omega
        rw [hz1, hmax, show s.short_end - s.index = 0 by omega]
        simp

theorem evenRunAux_flatten (fuel : Nat) : ∀ (s : EvenChunks α), EvenInv s →
    s.short_end - s.index ≤ fuel →
    ((evenRunAux fuel s).map Chunk.view).flatten
      = (s.owner.drop s.index).take (s.short_end - s.index) := by
  induction fuel with
  | zero =>
    intro s hinv hfuel
    rw [show s.short_end - s.index = 0 by omega]
    simp [evenRunAux]
  | succ fuel ih =>
    intro s hinv hfuel
    obtain ⟨h1, h2, h3, h4, h5⟩ := hinv
    by_cases hl : s.index < s.long_end
    · obtain ⟨hd1, hd2, hd3⟩ := h4 (by omega)
      have hadv : s.base_chunk_size + 1 ≤ s.long_end - s.index :=
        Nat.le_of_dvd (by omega) hd1
      have hinv' : EvenInv
          ⟨s.base_chunk_size, s.index + (s.base_chunk_size + 1), s.long_end,
           s.short_end, s.ownerId, s.owner⟩ := by
        have hstep := evenInv_next s ⟨h1, h2, h3, h4, h5⟩
        simpa [EvenChunks.next, if_pos hl] using hstep
      have hrec := ih ⟨s.base_chunk_size, s.index + (s.base_chunk_size + 1), s.long_end,
          s.short_end, s.ownerId, s.owner⟩ hinv'
        (show s.short_end - (s.index + (s.base_chunk_size + 1)) ≤ fuel by omega)
      simp only [evenRunAux, EvenChunks.next, if_pos hl, List.map_cons, List.flatten_cons]
      rw [hrec]
      show (s.owner.drop s.index).take (s.base_chunk_size + 1)
          ++ (s.owner.drop (s.index + (s.base_chunk_size + 1))).take
              (s.short_end - (s.index + (s.base_chunk_size + 1)))
        = (s.owner.drop s.index).take (s.short_end - s.index)
      have heq : s.short_end - (s.index + (s.base_chunk_size + 1))
          = (s.short_end - s.index) - (s.base_chunk_size + 1) := by omega
      rw [heq]
      exact take_chunk_step s.owner s.index (s.base_chunk_size + 1)
        (s.short_end - s.index) (by omega)
    · by_cases hsh : s.index < s.short_end
      · obtain ⟨he1, he2⟩ := h5 (by omega)
        have hbpos : 0 < s.base_chunk_size := by
          rcases Nat.eq_zero_or_pos s.base_chunk_size with h0 | hpos
          · exact absurd (he2 h0) (by omega)
          · exact hpos
        have hadv : s.base_chunk_size ≤ s.short_end - s.index :=
          Nat.le_of_dvd (by omega) he1
        have hinv' : EvenInv
            ⟨s.base_chunk_size, s.index + s.base_chunk_size, s.long_end,
             s.short_end, s.ownerId, s.owner⟩ := by
          have hstep := evenInv_next s ⟨h1, h2, h3, h4, h5⟩
          simpa [EvenChunks.next, if_neg hl, if_pos hsh] using hstep
        have hrec := ih ⟨s.base_chunk_size, s.index + s.base_chunk_size, s.long_end,
            s.short_end, s.ownerId, s.owner⟩ hinv'
          (show s.short_end - (s.index + s.base_chunk_size) ≤ fuel by omega)
        simp only [evenRunAux, EvenChunks.next, if_neg hl, if_pos hsh, List.map_cons,
          List.flatten_cons]
        rw [hrec]
        show (s.owner.drop s.index).take s.base_chunk_size
            ++ (s.owner.drop (s.index + s.base_chunk_size)).take
                (s.short_end - (s.index + s.base_chunk_size))
          = (s.owner.drop s.index).take (s.short_end - s.index)
        have heq : s.short_end - (s.index + s.base_chunk_size)
            = (s.short_end - s.index) - s.base_chunk_size := by omega
        rw [heq]
        exact take_chunk_step s.owner s.index s.base_chunk_size
          (s.short_end - s.index) (by omega)
      · rw [evenRunAux_terminal _ _ h1 (by omega),
          show s.short_end - s.index = 0 by omega]
        simp

theorem evenRunAux_bounds (fuel : Nat) : ∀ (s : EvenChunks α), EvenInv s →
    ∀ c ∈ evenRunAux fuel s, s.index ≤ c.start ∧ c.start + c.len ≤ s.short_end ∧
      c.ownerId = s.ownerId ∧ c.owner = s.owner ∧ 0 < c.len := by
  induction fuel with
  | zero => intro s _ c hc; simp [evenRunAux] at hc
  | succ fuel ih =>
    intro s hinv c hc
    obtain ⟨h1, h2, h3, h4, h5⟩ := hinv
    by_cases hl : s.index < s.long_end
    · obtain ⟨hd1, hd2, hd3⟩ := h4 (by omega)
      have hadv : s.base_chunk_size + 1 ≤ s.long_end - s.index :=
        Nat.le_of_dvd (by omega) hd1
      have hinv' : EvenInv
          ⟨s.base_chunk_size, s.index + (s.base_chunk_size + 1), s.long_end,
           s.short_end, s.ownerId, s.owner⟩ := by
        have hstep := evenInv_next s ⟨h1, h2, h3, h4, h5⟩
        simpa [EvenChunks.next, if_pos hl] using hstep
      simp only [evenRunAux, EvenChunks.next, if_pos hl] at hc
      rcases List.mem_cons.mp hc with rfl | hc'
      · exact ⟨le_refl _, show s.index + (s.base_chunk_size + 1) ≤ s.short_end by omega,
          rfl, rfl, Nat.succ_pos _⟩
      · have := ih _ hinv' c hc'
        exact ⟨by
            have h' := this.1
            simp only at h'
            omega,
          this.2.1, this.2.2.1, this.2.2.2.1, this.2.2.2.2⟩
    · by_cases hsh : s.index < s.short_end
      · obtain ⟨he1, he2⟩ := h5 (by omega)
        have hbpos : 0 < s.base_chunk_size := by
          rcases Nat.eq_zero_or_pos s.base_chunk_size with h0 | hpos
          · exact absurd (he2 h0) (by omega)
          · exact hpos
        have hadv : s.base_chunk_size ≤ s.short_end - s.index :=
          Nat.le_of_dvd (by omega) he1
        have hinv' : EvenInv
            ⟨s.base_chunk_size, s.index + s.base_chunk_size, s.long_end,
             s.short_end, s.ownerId, s.owner⟩ := by
          have hstep := evenInv_next s ⟨h1, h2, h3, h4, h5⟩
          simpa [EvenChunks.next, if_neg hl, if_pos hsh] using hstep
        simp only [evenRunAux, EvenChunks.next, if_neg hl, if_pos hsh] at hc
        rcases List.mem_cons.mp hc with rfl | hc'
        · exact ⟨le_refl _, show s.index + s.base_chunk_size ≤ s.short_end by omega,
            rfl, rfl, hbpos⟩
        · have := ih _ hinv' c hc'
          exact ⟨by
              have h' := this.1
              simp only at h'
              omega,
            this.2.1, this.2.2.1, this.2.2.2.1, this.2.2.2.2⟩
      · rw [evenRunAux_terminal _ _ h1 (by omega)] at hc
        simp at hc

theorem evenRunAux_head (fuel : Nat) (s : EvenChunks α) (c : Chunk α)
    (hls : s.long_end ≤ s.short_end)
    (h : (evenRunAux fuel s).head? = some c) : c.start = s.index := by
  rcases fuel with _ | fuel
  · simp [evenRunAux] at h
  · by_cases ht : s.short_end ≤ s.index
    · rw [evenRunAux_terminal _ _ hls ht] at h
      simp at h
    · by_cases hl : s.index < s.long_end
      · simp only [evenRunAux, EvenChunks.next, if_pos hl, List.head?_cons,
          Option.some_inj] at h
        rw [← h]
      · simp only [evenRunAux, EvenChunks.next, if_neg hl,
          if_pos (show s.index < s.short_end by omega), List.head?_cons,
          Option.some_inj] at h
        rw [← h]

theorem evenRunAux_chain (fuel : Nat) : ∀ (s : EvenChunks α), EvenInv s →
    List.Chain' (fun a b => a.start + a.len = b.start) (evenRunAux fuel s) := by
  induction fuel with
  | zero => intro s _; simp [evenRunAux]
  | succ fuel ih =>
    intro s hinv
    obtain ⟨h1, h2, h3, h4, h5⟩ := hinv
    by_cases hl : s.index < s.long_end
    · have hinv' : EvenInv
          ⟨s.base_chunk_size, s.index + (s.base_chunk_size + 1), s.long_end,
           s.short_end, s.ownerId, s.owner⟩ := by
        have hstep := evenInv_next s ⟨h1, h2, h3, h4, h5⟩
        simpa [EvenChunks.next, if_pos hl] using hstep
      simp only [evenRunAux, EvenChunks.next, if_pos hl]
      refine List.chain'_cons'.mpr ⟨?_, ih _ hinv'⟩
      intro b hb
      have hb' := evenRunAux_head fuel
        ⟨s.base_chunk_size, s.index + (s.base_chunk_size + 1), s.long_end,
         s.short_end, s.ownerId, s.owner⟩ b h1 hb
      simp only at hb'
      simp only [hb']
    · by_cases hsh : s.index < s.short_end
      · have hinv' : EvenInv
            ⟨s.base_chunk_size, s.index + s.base_chunk_size, s.long_end,
             s.short_end, s.ownerId, s.owner⟩ := by
          have hstep := evenInv_next s ⟨h1, h2, h3, h4, h5⟩
          simpa [EvenChunks.next, if_neg hl, if_pos hsh] using hstep
        simp only [evenRunAux, EvenChunks.next, if_neg hl, if_pos hsh]
        refine List.chain'_cons'.mpr ⟨?_, ih _ hinv'⟩
        intro b hb
        have hb' := evenRunAux_head fuel
          ⟨s.base_chunk_size, s.index + s.base_chunk_size, s.long_end,
           s.short_end, s.ownerId, s.owner⟩ b h1 hb
        simp only at hb'
        simp only [hb']
      · rw [evenRunAux_terminal _ _ h1 (by omega)]
        simp

/-! Helper lemmas: window iterator closed form, and the by-division iterator as
a fixed-size iterator. -/

theorem windowsRunAux_closed (fuel : Nat) : ∀ (s : Windows α),
    s.end_ + 1 - s.index ≤ fuel →
    windowsRunAux fuel s
      = (List.range (s.end_ + 1 - (s.index + s.size))).map
          (fun i => ⟨s.ownerId, s.owner, s.index + i, s.size⟩) := by
  induction fuel with
  | zero =>
    intro s hfuel
    have h0 : s.end_ + 1 - (s.index + s.size) = 0 := by omega
    rw [h0]
    simp [windowsRunAux]
  | succ fuel ih =>
    intro s hfuel
    by_cases ht : s.end_ < s.index + s.size
    · have h0 : s.end_ + 1 - (s.index + s.size) = 0 := by omega
      rw [h0]
      simp [windowsRunAux, Windows.next, ht]
    · simp only [windowsRunAux, Windows.next, if_neg ht]
      have hrec := ih ⟨s.ownerId, s.owner, s.size, s.index + 1, s.end_⟩
        (show s.end_ + 1 - (s.index + 1) ≤ fuel by omega)
      rw [hrec]
      show (⟨s.ownerId, s.owner, s.index, s.size⟩ : Chunk α)
          :: (List.range (s.end_ + 1 - (s.index + 1 + s.size))).map
              (fun i => ⟨s.ownerId, s.owner, s.index + 1 + i, s.size⟩)
        = _
      obtain ⟨m, hm⟩ : ∃ m, s.end_ + 1 - (s.index + s.size) = m + 1 :=
        ⟨s.end_ - (s.index + s.size), by omega⟩
      rw [hm, List.range_succ_eq_map, List.map_cons, List.map_map]
      have h1 : s.end_ + 1 - (s.index + 1 + s.size) = m := by omega
      rw [h1]
      congr 1
      apply List.map_congr_left
      intro a _
      simp only [Function.comp_apply, Chunk.mk.injEq, true_and, and_true]
      omega

theorem chunksRunAux_toSized (fuel : Nat) : ∀ (s : Chunks α),
    chunksRunAux fuel s = sizedRunAux fuel s.toSized := by
  induction fuel with
  | zero => intro s; rfl
  | succ fuel ih =>
    intro s
    by_cases ht : s.end_ ≤ s.index
    · simp [chunksRunAux, sizedRunAux, Chunks.next, SizedChunks.next, Chunks.toSized, ht]
    · simp only [chunksRunAux, sizedRunAux, Chunks.next, SizedChunks.next,
        Chunks.toSized, if_neg ht]
      rw [ih ⟨min (s.index + s.chunk_size) s.end_, s.chunk_size, s.end_, s.data⟩]
      rfl

theorem chunksRun_toSized (s : Chunks α) : s.run = SizedChunks.run s.toSized :=
  chunksRunAux_toSized _ s

/-! Run-level wrappers (instantiating the fuel at `run`'s own budget). -/

theorem sizedRun_length (s : SizedChunks α)
    (hk : s.index < s.end_ → 0 < s.chunk_size) :
    s.run.length = (s.end_ - s.index + s.chunk_size - 1) / s.chunk_size :=
  sizedRunAux_length _ s hk (le_refl _)

theorem sizedRun_flatten (s : SizedChunks α)
    (hk : s.index < s.end_ → 0 < s.chunk_size) :
    (s.run.map Chunk.view).flatten = (s.owner.drop s.index).take (s.end_ - s.index) :=
  sizedRunAux_flatten _ s hk (le_refl _)

theorem sizedRun_dropLast (s : SizedChunks α)
    (hk : s.index < s.end_ → 0 < s.chunk_size) :
    ∀ c ∈ s.run.dropLast, c.len = s.chunk_size :=
  sizedRunAux_dropLast _ s hk (le_refl _)

theorem sizedRun_bounds (s : SizedChunks α)
    (hk : s.index < s.end_ → 0 < s.chunk_size) :
    ∀ c ∈ s.run, s.index ≤ c.start ∧ c.start + c.len ≤ s.end_ ∧
      c.ownerId = s.ownerId ∧ c.owner = s.owner ∧ 0 < c.len :=
  sizedRunAux_bounds _ s hk

theorem sizedRun_chain (s : SizedChunks α) :
    List.Chain' (fun a b => a.start + a.len = b.start) s.run :=
  sizedRunAux_chain _ s

theorem evenRun_lens (s : EvenChunks α) (hinv : EvenInv s) :
    s.run.map Chunk.len
      = List.replicate ((s.long_end - s.index) / (s.base_chunk_size + 1))
          (s.base_chunk_size + 1)
        ++ List.replicate ((s.short_end - max s.long_end s.index) / s.base_chunk_size)
            s.base_chunk_size :=
  evenRunAux_lens _ s hinv (le_refl _)

theorem evenRun_flatten (s : EvenChunks α) (hinv : EvenInv s) :
    (s.run.map Chunk.view).flatten = (s.owner.drop s.index).take (s.short_end - s.index) :=
  evenRunAux_flatten _ s hinv (le_refl _)

theorem evenRun_bounds (s : EvenChunks α) (hinv : EvenInv s) :
    ∀ c ∈ s.run, s.index ≤ c.start ∧ c.start + c.len ≤ s.short_end ∧
      c.ownerId = s.ownerId ∧ c.owner = s.owner ∧ 0 < c.len :=
  evenRunAux_bounds _ s hinv

theorem evenRun_chain (s : EvenChunks α) (hinv : EvenInv s) :
    List.Chain' (fun a b => a.start + a.len = b.start) s.run :=
  evenRunAux_chain _ s hinv

theorem windowsRun_closed (s : Windows α) :
    s.run = (List.range (s.end_ + 1 - (s.index + s.size))).map
        (fun i => ⟨s.ownerId, s.owner, s.index + i, s.size⟩) :=
  windowsRunAux_closed _ s (le_refl _)

/-! Claim theorems. -/

/-- C3: for every collection `C` and every index `i` with `0 ≤ i ≤ len(C)`,
`split_at i` yields two views covering `[0, i)` and `[i, len(C))` of the same
owner, and `cat` applied to the two views succeeds and yields a view whose
element sequence equals `C` exactly. -/
theorem splitAt_cat_roundtrip (id : Nat) (C : List α) (i : Nat) (h : i ≤ C.length) :
    ∃ l r : Chunk α, (Chunk.new id C).splitAt i = some (l, r) ∧
      l.view = C.take i ∧ r.view = C.drop i ∧
      l.ownerId = r.ownerId ∧ l.owner = r.owner ∧
      ∃ m : Chunk α, Chunk.cat [l, r] = some m ∧ m.view = C := by
  refine ⟨⟨id, C, 0, i⟩, ⟨id, C, 0 + i, C.length - i⟩, ?_, ?_, ?_, rfl, rfl, ?_⟩
  · rw [Chunk.new, Chunk.splitAt, if_pos (show i ≤ C.length from h)]
  · simp [Chunk.view]
  · show (C.drop (0 + i)).take (C.length - i) = C.drop i
    rw [show 0 + i = i by omega,
      show C.length - i = (C.drop i).length by simp, List.take_length]
  · refine ⟨⟨id, C, 0, i + (C.length - i + 0)⟩, ?_, ?_⟩
    · rw [Chunk.cat]
      simp [contiguousB]
    · show (C.drop 0).take (i + (C.length - i + 0)) = C
      rw [List.drop_zero, show i + (C.length - i + 0) = C.length by omega,
        List.take_length]

/-- C3 witness: splitting `[0..8)` at 5 and concatenating the parts. -/
theorem splitAt_cat_roundtrip_witness :
    (5 ≤ ([0, 1, 2, 3, 4, 5, 6, 7] : List Nat).length) ∧
    (∃ l r : Chunk Nat,
      (Chunk.new 0 [0, 1, 2, 3, 4, 5, 6, 7]).splitAt 5 = some (l, r) ∧
      l.view = ([0, 1, 2, 3, 4, 5, 6, 7] : List Nat).take 5 ∧
      r.view = ([0, 1, 2, 3, 4, 5, 6, 7] : List Nat).drop 5 ∧
      l.ownerId = r.ownerId ∧ l.owner = r.owner ∧
      ∃ m : Chunk Nat, Chunk.cat [l, r] = some m ∧
        m.view = [0, 1, 2, 3, 4, 5, 6, 7]) :=
  ⟨by decide, splitAt_cat_roundtrip 0 [0, 1, 2, 3, 4, 5, 6, 7] 5 (by decide)⟩

/-- C2: for every collection `C` and chunk size `k > 0`, `into_sized_chunks k`
yields exactly `ceil(len(C)/k)` views, every yielded view except the last has
length `k`, and concatenating the yielded views' element sequences in order
reproduces `C` exactly; and on an empty collection the iterator yields zero
views for every size, size 0 included. -/
theorem intoSizedChunks_spec :
    (∀ (id : Nat) (C : List α) (k : Nat), 0 < k →
      ∃ s : SizedChunks α, (Chunk.new id C).intoSizedChunks k = some s ∧
        s.run.length = (C.length + k - 1) / k ∧
        (∀ c ∈ s.run.dropLast, c.len = k) ∧
        (s.run.map Chunk.view).flatten = C) ∧
    (∀ (id k : Nat), ∃ s : SizedChunks α,
      (Chunk.new id ([] : List α)).intoSizedChunks k = some s ∧ s.run = []) := by
  constructor
  · intro id C k hk
    refine ⟨⟨0, k, 0 + C.length, id, C⟩, ?_, ?_, ?_, ?_⟩
    · rw [Chunk.new, Chunk.intoSizedChunks, if_pos (Or.inr hk)]
    · rw [sizedRun_length ⟨0, k, 0 + C.length, id, C⟩ (fun _ => hk)]
      show (0 + C.length - 0 + k - 1) / k = (C.length + k - 1) / k
      rw [show 0 + C.length - 0 + k - 1 = C.length + k - 1 by omega]
    · exact sizedRun_dropLast ⟨0, k, 0 + C.length, id, C⟩ (fun _ => hk)
    · rw [sizedRun_flatten ⟨0, k, 0 + C.length, id, C⟩ (fun _ => hk)]
      show (C.drop 0).take (0 + C.length - 0) = C
      rw [List.drop_zero, show 0 + C.length - 0 = C.length by omega, List.take_length]
  · intro id k
    refine ⟨⟨0, k, 0 + ([] : List α).length, id, []⟩, ?_, rfl⟩
    simp [Chunk.new, Chunk.intoSizedChunks]

/-- C2 witness: `[0..5)` in chunks of 2 (and the empty collection with size 0). -/
theorem intoSizedChunks_spec_witness :
    ((0 : Nat) < 2 ∧
      ∃ s : SizedChunks Nat,
        (Chunk.new 0 [0, 1, 2, 3, 4]).intoSizedChunks 2 = some s ∧
        s.run.length = (([0, 1, 2, 3, 4] : List Nat).length + 2 - 1) / 2 ∧
        (∀ c ∈ s.run.dropLast, c.len = 2) ∧
        (s.run.map Chunk.view).flatten = [0, 1, 2, 3, 4]) ∧
    (∃ s : SizedChunks Nat,
      (Chunk.new 3 ([] : List Nat)).intoSizedChunks 0 = some s ∧ s.run = []) :=
  ⟨⟨by decide, (intoSizedChunks_spec (α := Nat)).1 0 [0, 1, 2, 3, 4] 2 (by decide)⟩,
   (intoSizedChunks_spec (α := Nat)).2 3 0⟩

/-- C1 counterexample: the claim "`into_even_chunks n` yields exactly `n`
views" fails at the concrete input `C = [0]`, `n = 2`: the iterator yields
exactly one view (base chunk size `1/2 = 0`, so `long_end = short_end` and the
zero-length tail chunks are never produced). -/
theorem intoEvenChunks_count_counterexample :
    ¬ (∀ (C : List Nat) (n : Nat), 0 < n → ∀ s : EvenChunks Nat,
        (Chunk.new 0 C).intoEvenChunks n = some s → s.run.length = n) := by
  intro h
  have hcount := h [0] 2 (by decide) ⟨0, 0, 1, 1, 0, [0]⟩ rfl
  have h1 : (EvenChunks.run (⟨0, 0, 1, 1, 0, [0]⟩ : EvenChunks Nat)).length = 1 := rfl
  rw [hcount] at h1
  exact absurd h1 (by decide)

/-- C1 (amended): for every collection `C` and every division count `n > 0`,
`into_even_chunks n` yields exactly `min n (len C)` views (that is, `n` views
whenever `len C ≥ n`, and one one-element view per element when `len C < n`);
the yielded length list is `len C mod n` copies of `⌈len C / n⌉ = len C / n + 1`
followed, when `len C ≥ n`, by `n - len C mod n` copies of `⌊len C / n⌋`; in
particular any two yielded views' lengths differ by at most one. -/
theorem intoEvenChunks_lengths (id : Nat) (C : List α) (n : Nat) (hn : 0 < n) :
    ∃ s : EvenChunks α, (Chunk.new id C).intoEvenChunks n = some s ∧
      s.run.map Chunk.len
        = List.replicate (C.length % n) (C.length / n + 1)
          ++ List.replicate (if n ≤ C.length then n - C.length % n else 0)
              (C.length / n) ∧
      s.run.length = min n C.length ∧
      (∀ a ∈ s.run, ∀ b ∈ s.run, a.len ≤ b.len + 1) := by
  have hmod := Nat.div_add_mod C.length n
  have hrlt : C.length % n < n := Nat.mod_lt _ hn
  have hmul : C.length % n * (C.length / n + 1)
      = C.length % n * (C.length / n) + C.length % n := Nat.mul_succ _ _
  have hmul2 : (n - C.length % n) * (C.length / n)
      = n * (C.length / n) - C.length % n * (C.length / n) :=
    Nat.sub_mul _ _ _
  have hrb : C.length % n * (C.length / n) ≤ n * (C.length / n) :=
    Nat.mul_le_mul_right _ (Nat.le_of_lt hrlt)
  set b := C.length / n with hbdef
  set r := C.length % n with hrdef
  have hstate : (Chunk.new id C).intoEvenChunks n
      = some ⟨b, 0, 0 + r * (b + 1), 0 + C.length, id, C⟩ := by
    rw [Chunk.new, Chunk.intoEvenChunks, if_pos hn]
  have hinv : EvenInv (⟨b, 0, 0 + r * (b + 1), 0 + C.length, id, C⟩ : EvenChunks α) := by
    have := evenInv_of id 0 C.length n b r C hn (by omega) hrlt (by omega)
    simpa [show (0 : Nat) + r * (b + 1) = r * (b + 1) by omega,
      show (0 : Nat) + C.length = C.length by omega] using this
  refine ⟨⟨b, 0, 0 + r * (b + 1), 0 + C.length, id, C⟩, hstate, ?_⟩
  have hlens := evenRun_lens ⟨b, 0, 0 + r * (b + 1), 0 + C.length, id, C⟩ hinv
  have hcnt1 : (0 + r * (b + 1) - 0) / (b + 1) = r := by
    rw [show 0 + r * (b + 1) - 0 = r * (b + 1) by omega,
      Nat.mul_div_cancel _ (Nat.succ_pos b)]
  have hmaxeq : max (0 + r * (b + 1)) 0 = 0 + r * (b + 1) := by omega
  have hcnt2 : (0 + C.length - max (0 + r * (b + 1)) 0) / b
      = if n ≤ C.length then n - r else 0 := by
    rw [hmaxeq]
    by_cases hln : n ≤ C.length
    · have hbpos : 0 < b := Nat.div_pos hln hn
      rw [show 0 + C.length - (0 + r * (b + 1)) = (n - r) * b by omega,
        Nat.mul_div_cancel _ hbpos, if_pos hln]
    · have hb0 : b = 0 := by
        rw [hbdef]
        exact Nat.div_eq_of_lt (by omega)
      rw [if_neg hln, hb0, Nat.div_zero]
  rw [hcnt1, hcnt2] at hlens
  refine ⟨?_, ?_, ?_⟩
  · rw [hlens]
  · have hlen2 : (EvenChunks.run
        (⟨b, 0, 0 + r * (b + 1), 0 + C.length, id, C⟩ : EvenChunks α)).length
        = r + (if n ≤ C.length then n - r else 0) := by
      rw [← List.length_map _ Chunk.len, hlens]
      simp
    rw [hlen2]
    by_cases hln : n ≤ C.length
    · rw [if_pos hln]
      omega
    · rw [if_neg hln]
      have hb0 : b = 0 := by
        rw [hbdef]
        exact Nat.div_eq_of_lt (by omega)
      have hnb : n * b = 0 := by rw [hb0, Nat.mul_zero]
      omega
  · intro a ha a' ha'
    have hmem : ∀ x ∈ EvenChunks.run
        (⟨b, 0, 0 + r * (b + 1), 0 + C.length, id, C⟩ : EvenChunks α),
        x.len = b + 1 ∨ x.len = b := by
      intro x hx
      have hx' : x.len ∈ (EvenChunks.run
          (⟨b, 0, 0 + r * (b + 1), 0 + C.length, id, C⟩ : EvenChunks α)).map
            Chunk.len := List.mem_map_of_mem _ hx
      rw [hlens] at hx'
      rcases List.mem_append.mp hx' with hl | hr
      · exact Or.inl (List.eq_of_mem_replicate hl)
      · exact Or.inr (List.eq_of_mem_replicate hr)
    rcases hmem a ha with h1 | h1 <;> rcases hmem a' ha' with h2 | h2 <;> omega

/-- C1 (amended) witness: `[0..5)` in 2 even chunks gives lengths `[3, 2]`. -/
theorem intoEvenChunks_lengths_witness :
    (0 : Nat) < 2 ∧
    (∃ s : EvenChunks Nat, (Chunk.new 0 [0, 1, 2, 3, 4]).intoEvenChunks 2 = some s ∧
      s.run.map Chunk.len
        = List.replicate (([0, 1, 2, 3, 4] : List Nat).length % 2)
            (([0, 1, 2, 3, 4] : List Nat).length / 2 + 1)
          ++ List.replicate
              (if 2 ≤ ([0, 1, 2, 3, 4] : List Nat).length
                then 2 - ([0, 1, 2, 3, 4] : List Nat).length % 2 else 0)
              (([0, 1, 2, 3, 4] : List Nat).length / 2) ∧
      s.run.length = min 2 ([0, 1, 2, 3, 4] : List Nat).length ∧
      (∀ a ∈ s.run, ∀ b ∈ s.run, a.len ≤ b.len + 1)) :=
  ⟨by decide, intoEvenChunks_lengths 0 [0, 1, 2, 3, 4] 2 (by decide)⟩

/-- C5: for every collection `C` and window width `w > 0`,
`into_windows_owned w` yields exactly `max(0, len(C) - w + 1)` views in order
(written `len(C) + 1 - w` in truncated `Nat` subtraction); every yielded view
has length `w`; and consecutive windows advance by one position, overlapping
in exactly `w - 1` elements (the tail of each window equals the first `w - 1`
elements of the next). -/
theorem intoWindowsOwned_spec (id : Nat) (C : List α) (w : Nat) (hw : 0 < w) :
    ((Chunk.new id C).intoWindowsOwned w).run.length = C.length + 1 - w ∧
    (∀ c ∈ ((Chunk.new id C).intoWindowsOwned w).run, c.len = w ∧ c.view.length = w) ∧
    (∀ i : Nat, ∀ h : i + 1 < ((Chunk.new id C).intoWindowsOwned w).run.length,
      (((Chunk.new id C).intoWindowsOwned w).run.get ⟨i + 1, h⟩).start
          = (((Chunk.new id C).intoWindowsOwned w).run.get
              ⟨i, Nat.lt_of_succ_lt h⟩).start + 1 ∧
      (((Chunk.new id C).intoWindowsOwned w).run.get
          ⟨i, Nat.lt_of_succ_lt h⟩).view.drop 1
          = (((Chunk.new id C).intoWindowsOwned w).run.get ⟨i + 1, h⟩).view.take (w - 1)) := by
  have hclosed := windowsRun_closed ((Chunk.new id C).intoWindowsOwned w)
  rw [show (Chunk.new id C).intoWindowsOwned w
      = ⟨id, C, w, 0, 0 + C.length⟩ from rfl] at hclosed ⊢
  refine ⟨?_, ?_, ?_⟩
  · rw [hclosed]
    simp only [List.length_map, List.length_range]
    omega
  · intro c hc
    rw [hclosed] at hc
    obtain ⟨i, hi, rfl⟩ := List.mem_map.mp hc
    rw [List.mem_range] at hi
    have hi' : i < 0 + C.length + 1 - (0 + w) := hi
    refine ⟨rfl, ?_⟩
    show ((C.drop (0 + i)).take w).length = w
    rw [List.length_take, List.length_drop]
    omega
  · intro i h
    have hlen : (Windows.run (⟨id, C, w, 0, 0 + C.length⟩ : Windows α)).length
        = 0 + C.length + 1 - (0 + w) := by
      rw [hclosed]
      simp
    have hget : ∀ (j : Nat) (hj : j < (Windows.run
        (⟨id, C, w, 0, 0 + C.length⟩ : Windows α)).length),
        (Windows.run (⟨id, C, w, 0, 0 + C.length⟩ : Windows α)).get ⟨j, hj⟩
          = ⟨id, C, 0 + j, w⟩ := by
      intro j hj
      rw [List.get_eq_getElem]
      simp only [hclosed, List.getElem_map, List.getElem_range]
    have hi1 : i + 1 < (Windows.run (⟨id, C, w, 0, 0 + C.length⟩ : Windows α)).length := h
    have hi0 : i < (Windows.run (⟨id, C, w, 0, 0 + C.length⟩ : Windows α)).length :=
      Nat.lt_of_succ_lt h
    rw [hget (i + 1) hi1, hget i hi0]
    constructor
    · show 0 + (i + 1) = 0 + i + 1
      omega
    · show ((C.drop (0 + i)).take w).drop 1 = ((C.drop (0 + (i + 1))).take w).take (w - 1)
      rw [List.drop_take, List.drop_drop, List.take_take,
        show min (w - 1) w = w - 1 by omega, show 0 + i + 1 = 0 + (i + 1) by omega]

/-- C5 witness: `[0..5)` with width 3 yields 3 windows of length 3 advancing
by one. -/
theorem intoWindowsOwned_spec_witness :
    (0 : Nat) < 3 ∧
    (((Chunk.new 0 ([0, 1, 2, 3, 4] : List Nat)).intoWindowsOwned 3).run.length
        = ([0, 1, 2, 3, 4] : List Nat).length + 1 - 3 ∧
      (∀ c ∈ ((Chunk.new 0 ([0, 1, 2, 3, 4] : List Nat)).intoWindowsOwned 3).run,
        c.len = 3 ∧ c.view.length = 3) ∧
      (∀ i : Nat, ∀ h : i + 1
          < ((Chunk.new 0 ([0, 1, 2, 3, 4] : List Nat)).intoWindowsOwned 3).run.length,
        (((Chunk.new 0 ([0, 1, 2, 3, 4] : List Nat)).intoWindowsOwned 3).run.get
            ⟨i + 1, h⟩).start
            = (((Chunk.new 0 ([0, 1, 2, 3, 4] : List Nat)).intoWindowsOwned 3).run.get
                ⟨i, Nat.lt_of_succ_lt h⟩).start + 1 ∧
        (((Chunk.new 0 ([0, 1, 2, 3, 4] : List Nat)).intoWindowsOwned 3).run.get
            ⟨i, Nat.lt_of_succ_lt h⟩).view.drop 1
            = (((Chunk.new 0 ([0, 1, 2, 3, 4] : List Nat)).intoWindowsOwned 3).run.get
                ⟨i + 1, h⟩).view.take (3 - 1))) :=
  ⟨by decide, intoWindowsOwned_spec 0 [0, 1, 2, 3, 4] 3 (by decide)⟩

/-- C6: the window iterator's remaining-count report is wrong at the concrete
input `C = [0,1,2,3,4]`, width 3: the freshly built iterator's `size_hint`
returns `end - (index + size) = 2`, yet the iterator yields 3 windows — the
claim (and Rust's `ExactSizeIterator` contract, and §4.4's
`max(0, (end-start) - width + 1)`) require the reported count to equal the
number of views still to be yielded. -/
theorem windows_size_hint_failing_input :
    Windows.size_hint ((Chunk.new 0 ([0, 1, 2, 3, 4] : List Nat)).intoWindowsOwned 3) = 2 ∧
    ((Chunk.new 0 ([0, 1, 2, 3, 4] : List Nat)).intoWindowsOwned 3).run.length = 3 ∧
    (2 : Nat) ≠ 3 := by
  refine ⟨rfl, rfl, by decide⟩

/-- C7 counterexample: `Chunk::into_windows_owned 0` is not a fatal error and
does yield windows: on the one-element collection `[0]` it yields two (empty)
views instead of failing. -/
theorem intoWindowsOwned_zero_counterexample :
    ¬ (∀ C : List Nat, ((Chunk.new 0 C).intoWindowsOwned 0).run = []) := by
  intro h
  have hrun := h [0]
  have h1 : ((Chunk.new 0 ([0] : List Nat)).intoWindowsOwned 0).run.length = 2 := rfl
  rw [hrun] at h1
  exact absurd h1 (by decide)

/-- C7 (amended): a zero window width is rejected only by the
`ConcurrentSlice::owning_windows` entry point, which panics
("size must be positive") and never yields; `Chunk::into_windows_owned 0` is
silently tolerated and yields `len(C) + 1` zero-length views before
terminating. -/
theorem zero_width_windows_behavior (id : Nat) (C : List α) :
    owning_windows C 0 = none ∧
    ((Chunk.new id C).intoWindowsOwned 0).run.length = C.length + 1 ∧
    (∀ c ∈ ((Chunk.new id C).intoWindowsOwned 0).run, c.len = 0) := by
  have hclosed := windowsRun_closed ((Chunk.new id C).intoWindowsOwned 0)
  rw [show (Chunk.new id C).intoWindowsOwned 0
      = ⟨id, C, 0, 0, 0 + C.length⟩ from rfl] at hclosed ⊢
  refine ⟨?_, ?_, ?_⟩
  · rw [owning_windows, if_neg (by omega)]
  · rw [hclosed]
    simp only [List.length_map, List.length_range]
    omega
  · intro c hc
    rw [hclosed] at hc
    obtain ⟨i, _, rfl⟩ := List.mem_map.mp hc
    rfl

/-- C8 counterexample: `concurrent_chunks_by_division` does not behave like
`into_even_chunks` at the concrete input of a 10-element collection with
division count 6: the former yields 5 views of lengths `[2,2,2,2,2]`
(fixed-size chunks of `ceil(10/6) = 2`), the latter 6 views of lengths
`[2,2,2,2,1,1]`. -/
theorem chunks_by_division_counterexample :
    ¬ (∀ (C : List Nat) (n : Nat), 0 < n →
        ∀ (t : Chunks Nat) (s : EvenChunks Nat),
          concurrent_chunks_by_division C n = some t →
          (Chunk.new 0 C).intoEvenChunks n = some s →
          t.run.map Chunk.len = s.run.map Chunk.len) := by
  intro h
  have hx := h (List.replicate 10 0) 6 (by decide)
    ⟨0, 2, 10, List.replicate 10 0⟩ ⟨1, 0, 8, 10, 0, List.replicate 10 0⟩ rfl rfl
  have h1 : (Chunks.run (⟨0, 2, 10, List.replicate 10 0⟩ : Chunks Nat)).map Chunk.len
      = [2, 2, 2, 2, 2] := rfl
  have h2 : (EvenChunks.run
      (⟨1, 0, 8, 10, 0, List.replicate 10 0⟩ : EvenChunks Nat)).map Chunk.len
      = [2, 2, 2, 2, 1, 1] := rfl
  rw [h1, h2] at hx
  exact absurd hx (by decide)

/-- C8 (amended): with an explicitly supplied division count `n > 0`,
`concurrent_chunks_by_division n` builds a fixed-size chunk iterator of chunk
size `ceil(len/n)` (0 for an empty collection): flattening its views in order
reproduces `C`, every view except the last has length `ceil(len/n)`, and it
yields `ceil(len / chunk_size)` views — which is not in general `n` views, nor
the even iterator's length sequence. -/
theorem concurrent_chunks_by_division_spec (C : List α) (n : Nat) (hn : 0 < n) :
    ∃ t : Chunks α, concurrent_chunks_by_division C n = some t ∧
      t.chunk_size = (C.length + n - 1) / n ∧
      (t.run.map Chunk.view).flatten = C ∧
      (∀ c ∈ t.run.dropLast, c.len = t.chunk_size) ∧
      t.run.length = (C.length + t.chunk_size - 1) / t.chunk_size := by
  by_cases hlen : C.length = 0
  · obtain rfl : C = [] := List.eq_nil_of_length_eq_zero hlen
    refine ⟨⟨0, 0, ([] : List α).length, []⟩, ?_, ?_, ?_, ?_, ?_⟩
    · simp [concurrent_chunks_by_division]
    · show 0 = (([] : List α).length + n - 1) / n
      rw [show ([] : List α).length + n - 1 = n - 1 by simp, pred_div_self]
    · show (List.map Chunk.view
          (chunksRunAux (([] : List α).length - 0) ⟨0, 0, ([] : List α).length, []⟩)).flatten
        = ([] : List α)
      rfl
    · intro c hc
      simp [Chunks.run, chunksRunAux] at hc
    · show (chunksRunAux (([] : List α).length - 0)
          (⟨0, 0, ([] : List α).length, []⟩ : Chunks α)).length
        = (([] : List α).length + 0 - 1) / 0
      norm_num [chunksRunAux]
  · have hcs : 0 < (C.length + n - 1) / n := Nat.div_pos (by omega) hn
    refine ⟨⟨0, (C.length + n - 1) / n, C.length, C⟩, ?_, rfl, ?_, ?_, ?_⟩
    · rw [concurrent_chunks_by_division, if_neg hlen, if_pos hn]
    · rw [chunksRun_toSized]
      show (List.map Chunk.view
          (SizedChunks.run ⟨0, (C.length + n - 1) / n, C.length, 0, C⟩)).flatten = C
      rw [sizedRun_flatten ⟨0, (C.length + n - 1) / n, C.length, 0, C⟩
        (fun _ => hcs)]
      show (C.drop 0).take (C.length - 0) = C
      rw [List.drop_zero, show C.length - 0 = C.length by omega, List.take_length]
    · rw [chunksRun_toSized]
      exact sizedRun_dropLast ⟨0, (C.length + n - 1) / n, C.length, 0, C⟩
        (fun _ => hcs)
    · rw [chunksRun_toSized]
      show (SizedChunks.run ⟨0, (C.length + n - 1) / n, C.length, 0, C⟩).length
        = (C.length + (C.length + n - 1) / n - 1) / ((C.length + n - 1) / n)
      rw [sizedRun_length ⟨0, (C.length + n - 1) / n, C.length, 0, C⟩
        (fun _ => hcs)]
      show (C.length - 0 + (C.length + n - 1) / n - 1) / ((C.length + n - 1) / n)
        = (C.length + (C.length + n - 1) / n - 1) / ((C.length + n - 1) / n)
      rw [show C.length - 0 = C.length by omega]

/-- C8 (amended) witness: a 5-element collection divided by 2 gives chunk
size 3 and views of lengths `[3, 2]`. -/
theorem concurrent_chunks_by_division_spec_witness :
    (0 : Nat) < 2 ∧
    (∃ t : Chunks Nat, concurrent_chunks_by_division ([0, 1, 2, 3, 4] : List Nat) 2 = some t ∧
      t.chunk_size = (([0, 1, 2, 3, 4] : List Nat).length + 2 - 1) / 2 ∧
      (t.run.map Chunk.view).flatten = [0, 1, 2, 3, 4] ∧
      (∀ c ∈ t.run.dropLast, c.len = t.chunk_size) ∧
      t.run.length = (([0, 1, 2, 3, 4] : List Nat).length + t.chunk_size - 1) / t.chunk_size) :=
  ⟨by decide, concurrent_chunks_by_division_spec [0, 1, 2, 3, 4] 2 (by decide)⟩

/-- C9: for both range-partitioning iterators, every state reachable from a
well-formed construction satisfies `offset ≤ end ≤ owner length`; every `next`
call that yields a view strictly advances the offset, the view spanning
exactly `[old offset, new offset)` — so the yielded views are adjacent,
pairwise disjoint, in increasing order and of positive length — and the
terminal state is permanent: a `next` call that yields nothing leaves the
state unchanged, so every subsequent call also yields nothing. -/
theorem partition_iterators_invariants :
    (∀ s : SizedChunks α, SizedReach s →
      (s.index ≤ s.end_ ∧ s.end_ ≤ s.owner.length) ∧
      (∀ c s', s.next = (some c, s') →
        s.index < s'.index ∧ c.start = s.index ∧ c.start + c.len = s'.index) ∧
      (∀ s', s.next = (none, s') → s' = s) ∧
      List.Chain' (fun a b => a.start + a.len = b.start) s.run ∧
      (∀ c ∈ s.run, 0 < c.len)) ∧
    (∀ s : EvenChunks α, EvenReach s →
      (s.index ≤ s.short_end ∧ s.short_end ≤ s.owner.length) ∧
      (∀ c s', s.next = (some c, s') →
        s.index < s'.index ∧ c.start = s.index ∧ c.start + c.len = s'.index) ∧
      (∀ s', s.next = (none, s') → s' = s) ∧
      List.Chain' (fun a b => a.start + a.len = b.start) s.run ∧
      (∀ c ∈ s.run, 0 < c.len)) := by
  constructor
  · intro s hreach
    obtain ⟨h1, h2, h3⟩ := sizedReach_inv s hreach
    refine ⟨⟨h1, h2⟩, ?_, ?_, sizedRun_chain s,
      fun c hc => ((sizedRun_bounds s h3) c hc).2.2.2.2⟩
    · intro c s' hnext
      by_cases ht : s.end_ ≤ s.index
      · rw [SizedChunks.next, if_pos ht] at hnext
        simp at hnext
      · rw [SizedChunks.next, if_neg ht] at hnext
        have hk := h3 (by omega)
        simp only [Prod.mk.injEq, Option.some_inj] at hnext
        obtain ⟨rfl, rfl⟩ := hnext
        refine ⟨?_, rfl, ?_⟩
        · show s.index < min (s.index + s.chunk_size) s.end_
          omega
        · show s.index + (min (s.index + s.chunk_size) s.end_ - s.index)
            = min (s.index + s.chunk_size) s.end_
          omega
    · intro s' hnext
      by_cases ht : s.end_ ≤ s.index
      · rw [SizedChunks.next, if_pos ht] at hnext
        simp only [Prod.mk.injEq] at hnext
        exact hnext.2.symm
      · rw [SizedChunks.next, if_neg ht] at hnext
        simp at hnext
  · intro s hreach
    obtain ⟨h1, h2, h3, h4, h5⟩ := evenReach_inv s hreach
    refine ⟨⟨h2, h3⟩, ?_, ?_, evenRun_chain s ⟨h1, h2, h3, h4, h5⟩,
      fun c hc => ((evenRun_bounds s ⟨h1, h2, h3, h4, h5⟩) c hc).2.2.2.2⟩
    · intro c s' hnext
      by_cases hl : s.index < s.long_end
      · rw [EvenChunks.next, if_pos hl] at hnext
        simp only [Prod.mk.injEq, Option.some_inj] at hnext
        obtain ⟨rfl, rfl⟩ := hnext
        exact ⟨show s.index < s.index + (s.base_chunk_size + 1) by omega, rfl, rfl⟩
      · by_cases hsh : s.index < s.short_end
        · rw [EvenChunks.next, if_neg hl, if_pos hsh] at hnext
          simp only [Prod.mk.injEq, Option.some_inj] at hnext
          obtain ⟨rfl, rfl⟩ := hnext
          obtain ⟨he1, he2⟩ := h5 (by omega)
          have hb : 0 < s.base_chunk_size := by
            rcases Nat.eq_zero_or_pos s.base_chunk_size with h0 | hpos
            · exact absurd (he2 h0) (by omega)
            · exact hpos
          exact ⟨show s.index < s.index + s.base_chunk_size by omega, rfl, rfl⟩
        · rw [EvenChunks.next, if_neg hl, if_neg hsh] at hnext
          simp at hnext
    · intro s' hnext
      by_cases hl : s.index < s.long_end
      · rw [EvenChunks.next, if_pos hl] at hnext
        simp at hnext
      · by_cases hsh : s.index < s.short_end
        · rw [EvenChunks.next, if_neg hl, if_pos hsh] at hnext
          simp at hnext
        · rw [EvenChunks.next, if_neg hl, if_neg hsh] at hnext
          simp only [Prod.mk.injEq] at hnext
          exact hnext.2.symm

/-- C9 witness: the invariants at the freshly-built fixed-size iterator over
`[0, 1]` with chunk size 1. -/
theorem partition_iterators_invariants_witness :
    ((⟨0, 1, 2, 0, [0, 1]⟩ : SizedChunks Nat).index
        ≤ (⟨0, 1, 2, 0, [0, 1]⟩ : SizedChunks Nat).end_ ∧
      (⟨0, 1, 2, 0, [0, 1]⟩ : SizedChunks Nat).end_
        ≤ (⟨0, 1, 2, 0, [0, 1]⟩ : SizedChunks Nat).owner.length) ∧
    (∀ c s', (⟨0, 1, 2, 0, [0, 1]⟩ : SizedChunks Nat).next = (some c, s') →
      (⟨0, 1, 2, 0, [0, 1]⟩ : SizedChunks Nat).index < s'.index ∧
      c.start = (⟨0, 1, 2, 0, [0, 1]⟩ : SizedChunks Nat).index ∧
      c.start + c.len = s'.index) ∧
    (∀ s', (⟨0, 1, 2, 0, [0, 1]⟩ : SizedChunks Nat).next = (none, s') →
      s' = ⟨0, 1, 2, 0, [0, 1]⟩) ∧
    List.Chain' (fun a b => a.start + a.len = b.start)
      (⟨0, 1, 2, 0, [0, 1]⟩ : SizedChunks Nat).run ∧
    (∀ c ∈ (⟨0, 1, 2, 0, [0, 1]⟩ : SizedChunks Nat).run, 0 < c.len) :=
  (partition_iterators_invariants (α := Nat)).1 ⟨0, 1, 2, 0, [0, 1]⟩
    (SizedReach.init (Chunk.new 0 [0, 1]) 1 ⟨0, 1, 2, 0, [0, 1]⟩
      (show (0 : Nat) + ([0, 1] : List Nat).length ≤ ([0, 1] : List Nat).length
        by decide) rfl)

/-- C10: for every well-formed view V of an owner (`V.start + V.len ≤ owner
length`, as produced by `split_at`, the partition iterators, or range
narrowing), partitioning V with `into_sized_chunks` (k > 0) or
`into_even_chunks` (n > 0) partitions exactly V's own sub-range: the flattened
views reproduce V's element sequence, and every yielded view lies inside
`[V.start, V.start + V.len)` of the owner — even though the iterator offsets
are absolute offsets into the whole owner's storage. -/
theorem sub_view_partition_spec (c : Chunk α) (hwf : c.wf) :
    (∀ k : Nat, 0 < k → ∃ s : SizedChunks α, c.intoSizedChunks k = some s ∧
      (s.run.map Chunk.view).flatten = c.view ∧
      ∀ c' ∈ s.run, c.start ≤ c'.start ∧ c'.start + c'.len ≤ c.start + c.len) ∧
    (∀ n : Nat, 0 < n → ∃ s : EvenChunks α, c.intoEvenChunks n = some s ∧
      (s.run.map Chunk.view).flatten = c.view ∧
      ∀ c' ∈ s.run, c.start ≤ c'.start ∧ c'.start + c'.len ≤ c.start + c.len) := by
  constructor
  · intro k hk
    refine ⟨⟨c.start, k, c.start + c.len, c.ownerId, c.owner⟩, ?_, ?_, ?_⟩
    · rw [Chunk.intoSizedChunks, if_pos (Or.inr hk)]
    · rw [sizedRun_flatten ⟨c.start, k, c.start + c.len, c.ownerId, c.owner⟩
        (fun _ => hk)]
      show (c.owner.drop c.start).take (c.start + c.len - c.start) = c.view
      rw [show c.start + c.len - c.start = c.len by omega]
      rfl
    · intro c' hc'
      have hb := sizedRun_bounds ⟨c.start, k, c.start + c.len, c.ownerId, c.owner⟩
        (fun _ => hk) c' hc'
      exact ⟨hb.1, hb.2.1⟩
  · intro n hn
    have heq : c.intoEvenChunks n = some ⟨c.len / n, c.start,
        c.start + c.len % n * (c.len / n + 1), c.start + c.len, c.ownerId, c.owner⟩ := by
      rw [Chunk.intoEvenChunks, if_pos hn]
    have hinv := evenInv_init c n _ hwf heq
    refine ⟨_, heq, ?_, ?_⟩
    · rw [evenRun_flatten _ hinv]
      show (c.owner.drop c.start).take (c.start + c.len - c.start) = c.view
      rw [show c.start + c.len - c.start = c.len by omega]
      rfl
    · intro c' hc'
      have hb := evenRun_bounds _ hinv c' hc'
      exact ⟨hb.1, hb.2.1⟩

/-- C10 witness: the sub-view `[2, 5)` of a 6-element owner, partitioned with
chunk size 2 and into 2 even chunks. -/
theorem sub_view_partition_spec_witness :
    (⟨0, [0, 1, 2, 3, 4, 5], 2, 3⟩ : Chunk Nat).wf ∧
    ((∀ k : Nat, 0 < k → ∃ s : SizedChunks Nat,
        (⟨0, [0, 1, 2, 3, 4, 5], 2, 3⟩ : Chunk Nat).intoSizedChunks k = some s ∧
        (s.run.map Chunk.view).flatten = (⟨0, [0, 1, 2, 3, 4, 5], 2, 3⟩ : Chunk Nat).view ∧
        ∀ c' ∈ s.run, (⟨0, [0, 1, 2, 3, 4, 5], 2, 3⟩ : Chunk Nat).start ≤ c'.start ∧
          c'.start + c'.len ≤ (⟨0, [0, 1, 2, 3, 4, 5], 2, 3⟩ : Chunk Nat).start
            + (⟨0, [0, 1, 2, 3, 4, 5], 2, 3⟩ : Chunk Nat).len) ∧
      (∀ n : Nat, 0 < n → ∃ s : EvenChunks Nat,
        (⟨0, [0, 1, 2, 3, 4, 5], 2, 3⟩ : Chunk Nat).intoEvenChunks n = some s ∧
        (s.run.map Chunk.view).flatten = (⟨0, [0, 1, 2, 3, 4, 5], 2, 3⟩ : Chunk Nat).view ∧
        ∀ c' ∈ s.run, (⟨0, [0, 1, 2, 3, 4, 5], 2, 3⟩ : Chunk Nat).start ≤ c'.start ∧
          c'.start + c'.len ≤ (⟨0, [0, 1, 2, 3, 4, 5], 2, 3⟩ : Chunk Nat).start
            + (⟨0, [0, 1, 2, 3, 4, 5], 2, 3⟩ : Chunk Nat).len)) :=
  ⟨show (2 : Nat) + 3 ≤ ([0, 1, 2, 3, 4, 5] : List Nat).length by decide,
   sub_view_partition_spec ⟨0, [0, 1, 2, 3, 4, 5], 2, 3⟩
     (show (2 : Nat) + 3 ≤ ([0, 1, 2, 3, 4, 5] : List Nat).length by decide)⟩

/-- C4: `try_unwrap_owner` (on both the chunk handle and the sized-chunk
iterator handle) succeeds if and only if the owner's strong reference count is
exactly 1 at the call, in which case it returns the owner's backing
collection; on failure the handle is returned unchanged (same owner, same
range/fields), allowing retry.  The remaining conjuncts show the returned
value is the originally supplied collection: no operation of the view layer
(`new`, `split_at`, the three iterator constructions and their `next` steps,
or `cat`) ever replaces the backing collection carried by the owner. -/
theorem try_unwrap_owner_spec :
    (∀ c : ChunkH α,
      ((∃ v, c.tryUnwrapOwner = Except.ok v) ↔ c.owner.strong = 1) ∧
      (∀ v, c.tryUnwrapOwner = Except.ok v → v = c.owner.value) ∧
      (c.owner.strong ≠ 1 → c.tryUnwrapOwner = Except.error c)) ∧
    (∀ s : SizedChunksH α,
      ((∃ v, s.tryUnwrapOwner = Except.ok v) ↔ s.owner.strong = 1) ∧
      (∀ v, s.tryUnwrapOwner = Except.ok v → v = s.owner.value) ∧
      (s.owner.strong ≠ 1 → s.tryUnwrapOwner = Except.error s)) ∧
    (∀ (id : Nat) (C : List α), (Chunk.new id C).owner = C) ∧
    (∀ (c : Chunk α) (i : Nat) (l r : Chunk α),
      c.splitAt i = some (l, r) → l.owner = c.owner ∧ r.owner = c.owner) ∧
    (∀ (c : Chunk α) (k : Nat) (s : SizedChunks α),
      c.intoSizedChunks k = some s → s.owner = c.owner) ∧
    (∀ (s : SizedChunks α) (c : Chunk α) (s' : SizedChunks α),
      s.next = (some c, s') → c.owner = s.owner ∧ s'.owner = s.owner) ∧
    (∀ (c : Chunk α) (n : Nat) (s : EvenChunks α),
      c.intoEvenChunks n = some s → s.owner = c.owner) ∧
    (∀ (s : EvenChunks α) (c : Chunk α) (s' : EvenChunks α),
      s.next = (some c, s') → c.owner = s.owner ∧ s'.owner = s.owner) ∧
    (∀ (c : Chunk α) (w : Nat), ((c.intoWindowsOwned w).owner = c.owner)) ∧
    (∀ (s : Windows α) (c : Chunk α) (s' : Windows α),
      s.next = (some c, s') → c.owner = s.owner ∧ s'.owner = s.owner) ∧
    (∀ (first : Chunk α) (rest : List (Chunk α)) (m : Chunk α),
      Chunk.cat (first :: rest) = some m → m.owner = first.owner) := by
  refine ⟨?_, ?_, fun _ _ => rfl, ?_, ?_, ?_, ?_, ?_, fun _ _ => rfl, ?_, ?_⟩
  · intro c
    by_cases h : c.owner.strong = 1
    · refine ⟨⟨fun _ => h, fun _ => ⟨c.owner.value, ?_⟩⟩, ?_, fun hne => absurd h hne⟩
      · rw [ChunkH.tryUnwrapOwner, Arc.tryUnwrap, if_pos h]
      · intro v hv
        rw [ChunkH.tryUnwrapOwner, Arc.tryUnwrap, if_pos h] at hv
        exact (Except.ok.inj hv).symm
    · have herr : c.tryUnwrapOwner = Except.error c := by
        rw [ChunkH.tryUnwrapOwner, Arc.tryUnwrap, if_neg h]
      refine ⟨⟨fun ⟨v, hv⟩ => ?_, fun hc => absurd hc h⟩, fun v hv => ?_, fun _ => herr⟩
      · rw [herr] at hv
        cases hv
      · rw [herr] at hv
        cases hv
  · intro s
    by_cases h : s.owner.strong = 1
    · refine ⟨⟨fun _ => h, fun _ => ⟨s.owner.value, ?_⟩⟩, ?_, fun hne => absurd h hne⟩
      · rw [SizedChunksH.tryUnwrapOwner, Arc.tryUnwrap, if_pos h]
      · intro v hv
        rw [SizedChunksH.tryUnwrapOwner, Arc.tryUnwrap, if_pos h] at hv
        exact (Except.ok.inj hv).symm
    · have herr : s.tryUnwrapOwner = Except.error s := by
        rw [SizedChunksH.tryUnwrapOwner, Arc.tryUnwrap, if_neg h]
      refine ⟨⟨fun ⟨v, hv⟩ => ?_, fun hc => absurd hc h⟩, fun v hv => ?_, fun _ => herr⟩
      · rw [herr] at hv
        cases hv
      · rw [herr] at hv
        cases hv
  · intro c i l r h
    rw [Chunk.splitAt] at h
    by_cases hi : i ≤ c.len
    · rw [if_pos hi] at h
      simp only [Option.some_inj, Prod.mk.injEq] at h
      obtain ⟨rfl, rfl⟩ := h
      exact ⟨rfl, rfl⟩
    · rw [if_neg hi] at h
      cases h
  · intro c k s h
    obtain ⟨rfl, -⟩ := intoSizedChunks_eq c k s h
    rfl
  · intro s c s' h
    by_cases ht : s.end_ ≤ s.index
    · rw [SizedChunks.next, if_pos ht] at h
      simp at h
    · rw [SizedChunks.next, if_neg ht] at h
      simp only [Prod.mk.injEq, Option.some_inj] at h
      obtain ⟨rfl, rfl⟩ := h
      exact ⟨rfl, rfl⟩
  · intro c n s h
    obtain ⟨rfl, -⟩ := intoEvenChunks_eq c n s h
    rfl
  · intro s c s' h
    by_cases hl : s.index < s.long_end
    · rw [EvenChunks.next, if_pos hl] at h
      simp only [Prod.mk.injEq, Option.some_inj] at h
      obtain ⟨rfl, rfl⟩ := h
      exact ⟨rfl, rfl⟩
    · by_cases hsh : s.index < s.short_end
      · rw [EvenChunks.next, if_neg hl, if_pos hsh] at h
        simp only [Prod.mk.injEq, Option.some_inj] at h
        obtain ⟨rfl, rfl⟩ := h
        exact ⟨rfl, rfl⟩
      · rw [EvenChunks.next, if_neg hl, if_neg hsh] at h
        simp at h
  · intro s c s' h
    by_cases ht : s.end_ < s.index + s.size
    · rw [Windows.next, if_pos ht] at h
      simp at h
    · rw [Windows.next, if_neg ht] at h
      simp only [Prod.mk.injEq, Option.some_inj] at h
      obtain ⟨rfl, rfl⟩ := h
      exact ⟨rfl, rfl⟩
  · intro first rest m h
    rw [Chunk.cat] at h
    by_cases hcond : ((rest.all fun c => c.ownerId == first.ownerId)
        && contiguousB (first :: rest)) = true
    · rw [if_pos hcond] at h
      simp only [Option.some_inj] at h
      rw [← h]
    · rw [if_neg hcond] at h
      cases h

/-- C4 witness: with a strong count of 2, reclamation fails and returns the
handle unchanged; with a strong count of 1 it succeeds with the collection. -/
theorem try_unwrap_owner_spec_witness :
    ((2 : Nat) ≠ 1 ∧
      ChunkH.tryUnwrapOwner (⟨⟨2, [5]⟩, 0, 1⟩ : ChunkH Nat)
        = Except.error ⟨⟨2, [5]⟩, 0, 1⟩) ∧
    (∀ v, ChunkH.tryUnwrapOwner (⟨⟨1, [5]⟩, 0, 1⟩ : ChunkH Nat) = Except.ok v →
      v = [5]) :=
  ⟨⟨by decide, ((try_unwrap_owner_spec (α := Nat)).1 ⟨⟨2, [5]⟩, 0, 1⟩).2.2 (by decide)⟩,
   ((try_unwrap_owner_spec (α := Nat)).1 ⟨⟨1, [5]⟩, 0, 1⟩).2.1⟩

end ConcurrentSlice
